import Mathlib

/-!
Verification of the structural path resolver of move2kube
(`internal/newparameterizer/common/utils.go`): the segment classifier,
the multi-match traversal engine (`GetAll`/`GetRecurse`), and the
single-path accessors (`Get`, `Set`, `SetCreatingNew`).

The Go code operates on dynamically typed YAML/JSON-like trees
(`interface{}` holding `map[string]interface{}`, `[]interface{}`, or
scalars); here that becomes the tagged union `Node`.  Go maps are
modelled as association lists whose lookup returns the first matching
entry and whose insert overwrites in place (Go maps have unique keys,
so the two coincide on trees built by the code).  The bindings map of a
`MatchResult` additionally carries two ghost fields that make the Go
heap behaviour visible to theorems: `matchesId` records which map
allocation (line 137 of utils.go allocates a fresh `map[string]string`
for every predicate match) the result's bindings live in, and `trace`
records the sequence of predicate captures made along the branch.
-/

namespace M2K

/-- A dynamically typed configuration tree value (Go `interface{}`). -/
inductive Node where
  | mapping : List (String × Node) → Node
  | seq : List Node → Node
  | str : String → Node
  | intV : Int → Node
  | boolV : Bool → Node
  | nullV : Node

/-- Lookup in a Go `map[string]interface{}` (first matching entry). -/
def mapLookup : List (String × Node) → String → Option Node
  | [], _ => none
  | (k, v) :: rest, q => if k = q then some v else mapLookup rest q

/-- Assignment `m[k] = v` on a Go `map[string]interface{}`:
overwrite the entry if present, append it otherwise. -/
def mapSet : List (String × Node) → String → Node → List (String × Node)
  | [], k, v => [(k, v)]
  | (k', v') :: rest, k, v =>
    if k' = k then (k, v) :: rest else (k', v') :: mapSet rest k v

/-- Assignment on a Go `map[string]string` (the bindings map). -/
def matchesInsert : List (String × String) → String → String → List (String × String)
  | [], k, v => [(k, v)]
  | (k', v') :: rest, k, v =>
    if k' = k then (k, v) :: rest else (k', v') :: matchesInsert rest k v

/-- A word character of Go's regexp `\w`: `[0-9A-Za-z_]`. -/
def isWordChar (c : Char) : Bool := c.isAlphanum || c = '_'

/-- Numeric value of a digit string (most significant digit first). -/
def digitsVal (cs : List Char) : Nat :=
  cs.foldl (fun a c => a * 10 + (c.toNat - '0'.toNat)) 0

/-- Matching of `arrayIndexRegex = ^\[(\d+)\]$` together with the
index extraction done by `getIndex`: the whole segment must be a
bracketed nonempty digit string, whose value is returned. -/
def arrayIndexParse (s : String) : Option Nat :=
  match s.toList with
  | '[' :: rest =>
    match rest.getLast? with
    | some ']' =>
      let mid := rest.dropLast
      if !mid.isEmpty && mid.all Char.isDigit then some (digitsVal mid) else none
    | _ => none
  | _ => none

/-- `isNormal` from utils.go: a segment is "normal" (plain key or
index) when it has no `[` or matches the array-index pattern. -/
def isNormal (k : String) : Bool :=
  !(k.contains '[') || (arrayIndexParse k).isSome

/-- Whether the optional value group `(=.+)?` of `complexSubKeyRegex`
matches `cs`: either absent, or `=` followed by at least one character,
none of which is a newline (RE2 `.` does not match `\n`). -/
def valueGroupOk (cs : List Char) : Bool :=
  match cs with
  | [] => true
  | '=' :: tl => !tl.isEmpty && tl.all (fun c => c != '\n')
  | _ => false

/-- Matching and submatch extraction of
`complexSubKeyRegex = ^\[(\w+:)?(\w+)(=.+)?\]$`.  Returns the three
raw capture groups (the name group still carrying its `:`, the value
group still carrying its `=`), or `none` when the segment does not
match.  The regex groups are delimited by the non-word characters `:`
and `=`, so leftmost-greedy matching is deterministic: the name group
is present exactly when the interior starts with a nonempty word run
followed by `:`. -/
def parseComplex (s : String) : Option (String × String × String) :=
  match s.toList with
  | '[' :: rest =>
    match rest.getLast? with
    | some ']' =>
      let mid := rest.dropLast
      let w1 := mid.takeWhile isWordChar
      let r1 := mid.dropWhile isWordChar
      match r1 with
      | ':' :: afterColon =>
        if w1.isEmpty then none
        else
          let w2 := afterColon.takeWhile isWordChar
          let r2 := afterColon.dropWhile isWordChar
          if w2.isEmpty then none
          else if valueGroupOk r2 then
            some (String.mk (w1 ++ [':']), String.mk w2, String.mk r2)
          else none
      | _ =>
        if !w1.isEmpty && valueGroupOk r1 then
          some ("", String.mk w1, String.mk r1)
        else none
    | _ => none
  | _ => none

/-- `strings.TrimSuffix(g1, ":")` followed by the defaulting of the
capture name to the field name when the name group is absent
(utils.go lines 102-106). -/
def defaultName (g1 g2 : String) : String :=
  if g1 = "" then g2 else (if g1.endsWith ":" then g1.dropRight 1 else g1)

/-- `strings.TrimPrefix(g3, "=")` applied when the value group is
nonempty (utils.go lines 107-109). -/
def stripEq (g3 : String) : String :=
  if g3 = "" then g3 else (if g3.startsWith "=" then g3.drop 1 else g3)

/-- One result of `GetAll` (the Go struct `RT`), with two ghost fields
recording heap allocation identity and the branch's capture history:
`matchesId` is the allocation id of the Go map held in `Matches`
(`none` for the nil map the traversal starts with), and `trace` lists
the `(captureName, matchedValue)` pairs inserted along the branch. -/
structure RT where
  Key : List String
  Value : Node
  Matches : List (String × String)
  matchesId : Option Nat
  trace : List (String × String)

/-- The `currentResult` passed down for one matching element of a
Predicate segment (utils.go lines 133-144): the bindings are copied
into a fresh map (allocation id `c`) extended with the capture, and
the resolved literal index is appended to the key; the ghost trace
records the capture. -/
def branchRT (cur : RT) (arrIdx : Nat) (matchName s : String) (c : Nat) : RT :=
  { Key := cur.Key ++ ["[" ++ toString arrIdx ++ "]"]
    Value := cur.Value
    Matches := matchesInsert cur.Matches matchName s
    matchesId := some c
    trace := cur.trace ++ [(matchName, s)] }

/-- The loop over the sequence elements in the Predicate case of
`GetRecurse` (utils.go lines 117-150), parameterized by the recursive
call `recur` on the remaining segments.  `c` is the ghost allocation
counter: every predicate match copies the bindings into a freshly
allocated map (lines 136-142), modelled by tagging the new bindings
with id `c` and incrementing the counter. -/
def predLoop (recur : Node → RT → Nat → List RT × Option String × Nat)
    (matchName matchKey matchValue : String) :
    List Node → Nat → RT → Nat → List RT × Option String × Nat
  | [], _, _, c => ([], none, c)
  | e :: es, arrIdx, cur, c =>
    match e with
    | Node.mapping em =>
      match mapLookup em matchKey with
      | none => predLoop recur matchName matchKey matchValue es (arrIdx + 1) cur c
      | some fv =>
        match fv with
        | Node.str s =>
          if matchValue != "" && matchValue != s then
            predLoop recur matchName matchKey matchValue es (arrIdx + 1) cur c
          else
            match recur e (branchRT cur arrIdx matchName s c) (c + 1) with
            | (rs, some err, c') => (rs, some err, c')
            | (rs, none, c') =>
              match predLoop recur matchName matchKey matchValue es (arrIdx + 1) cur c' with
              | (rs2, err2, c'') => (rs ++ rs2, err2, c'')
        | _ => ([], some "expected the value to be a string", c)
    | _ => ([], some "expected all the elements of the slice to be object", c)

/-- `GetRecurse` from utils.go, on the list of remaining segments
(`subKeys[subKeyIdx:]` in the Go code).  Returns the results appended
during the call, the error if any, and the ghost allocation counter. -/
def getRecurse : List String → Node → RT → Nat → List RT × Option String × Nat
  | [], v, cur, c => ([{ cur with Value := v }], none, c)
  | k :: rest, v, cur, c =>
    if isNormal k then
      match v with
      | Node.mapping m =>
        match mapLookup m k with
        | some v' => getRecurse rest v' { cur with Key := cur.Key ++ [k] } c
        | none => ([], some ("failed to find the subkey " ++ k ++ " in the map"), c)
      | Node.seq xs =>
        match arrayIndexParse k with
        | some idx =>
          if h : idx < xs.length then
            getRecurse rest (xs.get ⟨idx, h⟩) { cur with Key := cur.Key ++ [k] } c
          else ([], some "the index is out of range for the slice", c)
        | none => ([], some ("failed to interpret the subkey " ++ k ++ " as an index to the slice"), c)
      | _ => ([], some "the value is not a map or slice", c)
    else
      match parseComplex k with
      | none => ([], some ("the subkey " ++ k ++ " is invalid"), c)
      | some (g1, g2, g3) =>
        match v with
        | Node.seq xs =>
          predLoop (fun v' cur' c' => getRecurse rest v' cur' c')
            (defaultName g1 g2) g2 (stripEq g3) xs 0 cur c
        | _ => ([], some "expected a slice of objects", c)
termination_by structural suffix => suffix

/-- The initial `currentResult := RT{}` of `GetAll`: empty key path,
nil value, nil bindings map. -/
def initialRT : RT := ⟨[], Node.nullV, [], none, []⟩

/-- `GetAll` on an already split key (results and error as returned to
the caller; the ghost counter is dropped). -/
def getAllK (subKeys : List String) (resource : Node) : List RT × Option String :=
  match getRecurse subKeys resource initialRT 0 with
  | (rs, e, _) => (rs, e)

/-- `Get` from utils.go, on an already split key: lenient single-path
navigation returning `(value, ok)`.  On a missing map key the Go code
returns the map's zero-value lookup (nil) with `false`; on a bad index
or a scalar it returns the current value with `false`. -/
def get : List String → Node → Node × Bool
  | [], v => (v, true)
  | k :: rest, v =>
    match v with
    | Node.mapping m =>
      match mapLookup m k with
      | some v' => get rest v'
      | none => (Node.nullV, false)
    | Node.seq xs =>
      match arrayIndexParse k with
      | some idx =>
        if h : idx < xs.length then get rest (xs.get ⟨idx, h⟩) else (v, false)
      | none => (v, false)
    | _ => (v, false)

/-- The walk of `Set` (utils.go lines 189-226) over the sub keys,
written as recursion on the list: the `[k]` case is the terminal
assignment (which requires the slot to exist already), the `k :: rest`
case is one step of the parent walk.  Returns the error, if any, and
the tree left behind: the Go code performs no mutation before any of
its error returns, so on an error the input tree is returned
unchanged. -/
def setAux : List String → Node → Node → Option String × Node
  | [], _, value => (some "no sub keys", value)
  | [k], newValue, value =>
    match value with
    | Node.mapping m =>
      match mapLookup m k with
      | some _ => (none, Node.mapping (mapSet m k newValue))
      | none => (some ("the sub key " ++ k ++ " is not present in the map"), value)
    | Node.seq xs =>
      match arrayIndexParse k with
      | some idx =>
        if idx < xs.length then (none, Node.seq (xs.set idx newValue))
        else (some ("the sub key " ++ k ++ " is not a valid index into the array"), value)
      | none => (some ("the sub key " ++ k ++ " is not a valid index into the array"), value)
    | _ => (some "expected a map or array type", value)
  | k :: k2 :: rest, newValue, value =>
    match value with
    | Node.mapping m =>
      match mapLookup m k with
      | some v' =>
        match setAux (k2 :: rest) newValue v' with
        | (none, v'') => (none, Node.mapping (mapSet m k v''))
        | (some e, _) => (some e, value)
      | none => (some ("the sub key " ++ k ++ " is not present in the map"), value)
    | Node.seq xs =>
      match arrayIndexParse k with
      | some idx =>
        if h : idx < xs.length then
          match setAux (k2 :: rest) newValue (xs.get ⟨idx, h⟩) with
          | (none, v'') => (none, Node.seq (xs.set idx v''))
          | (some e, _) => (some e, value)
        else (some ("the sub key " ++ k ++ " is not a valid index into the array"), value)
      | none => (some ("the sub key " ++ k ++ " is not a valid index into the array"), value)
    | _ => (some ("the sub key " ++ k ++ " cannot be matched because we reached a scalar value"), value)

/-- `Set` from utils.go on an already split key. -/
def set (subKeys : List String) (newValue : Node) (config : Node) : Option String × Node :=
  match subKeys with
  | [] => (some "no sub keys found for the key", config)
  | k :: rest => setAux (k :: rest) newValue config

/-- The loop of `SetCreatingNew` (utils.go lines 241-261): every
missing or non-Mapping intermediate is replaced by a fresh empty map,
and the terminal segment is assigned unconditionally.  The loop body
has no error return. -/
def scnAux : List String → Node → List (String × Node) → List (String × Node)
  | [], _, config => config
  | [k], newValue, config => mapSet config k newValue
  | k :: k2 :: rest, newValue, config =>
    let sub : List (String × Node) :=
      match mapLookup config k with
      | some (Node.mapping mm) => mm
      | _ => []
    mapSet config k (Node.mapping (scnAux (k2 :: rest) newValue sub))

/-- `SetCreatingNew` from utils.go on an already split key (the
`key == ""` guard lives in the string-level wrapper below). -/
def setCreatingNew (subKeys : List String) (newValue : Node)
    (config : List (String × Node)) : Option String × List (String × Node) :=
  match subKeys with
  | [] => (some "no sub keys found for the key", config)
  | k :: rest => (none, scnAux (k :: rest) newValue config)

/-- Modelled from the spec: `common.SplitOnDotExpectInsideQuotes`
(not part of the given sources) splits on `.`, treating any `.`
inside a matching pair of double quotes as literal. -/
def splitOnDotAux : List Char → Bool → List Char → List (List Char)
  | [], _, cur => [cur.reverse]
  | ch :: rest, inQ, cur =>
    if ch == '"' then splitOnDotAux rest (!inQ) (ch :: cur)
    else if ch == '.' && !inQ then cur.reverse :: splitOnDotAux rest inQ []
    else splitOnDotAux rest inQ (ch :: cur)

/-- Modelled from the spec: the splitting half of `GetSubKeys`. -/
def splitOnDot (s : String) : List String :=
  (splitOnDotAux s.toList false []).map String.mk

/-- Modelled from the spec: `common.StripQuotes` (not part of the
given sources) strips one layer of surrounding double quotes. -/
def stripQuotes (s : String) : String :=
  if s.startsWith "\"" && s.endsWith "\"" && s.length ≥ 2 then
    (s.drop 1).dropRight 1
  else s

/-- `GetSubKeys` from utils.go: split the key and strip quotes from
each piece (the splitting helpers are modelled from the spec). -/
def getSubKeys (key : String) : List String :=
  (splitOnDot key).map stripQuotes

/-- `GetAll` from utils.go on a raw key string. -/
def getAll (key : String) (resource : Node) : List RT × Option String :=
  getAllK (getSubKeys key) resource

/-- `Get` from utils.go on a raw key string. -/
def getS (key : String) (config : Node) : Node × Bool :=
  get (getSubKeys key) config

/-- `Set` from utils.go on a raw key string (including the empty-key
guard). -/
def setS (key : String) (newValue : Node) (config : Node) : Option String × Node :=
  if key = "" then (some "the key is an empty string", config)
  else set (getSubKeys key) newValue config

/-- `SetCreatingNew` from utils.go on a raw key string (including the
empty-key guard). -/
def setCreatingNewS (key : String) (newValue : Node)
    (config : List (String × Node)) : Option String × List (String × Node) :=
  if key = "" then (some "the key is an empty string", config)
  else setCreatingNew (getSubKeys key) newValue config

/-- Whether a sequence element matches a predicate with field
`matchKey` and (already `=`-stripped) filter `matchValue`: it must be
a Mapping containing `matchKey` with a string value that equals
`matchValue` unless the filter is empty.  (Elements whose `matchKey`
value is not a string make the traversal error instead; hypotheses
using `predMatches` exclude them separately.) -/
def predMatches (matchKey matchValue : String) : Node → Bool
  | Node.mapping em =>
    match mapLookup em matchKey with
    | some (Node.str s) => !(matchValue != "" && matchValue != s)
    | some _ => false
    | none => false
  | Node.seq _ => false
  | Node.str _ => false
  | Node.intV _ => false
  | Node.boolV _ => false
  | Node.nullV => false

/-- Rebuild a bindings map from the capture trace by successive Go map
assignments starting from the empty map. -/
def foldTrace (tr : List (String × String)) : List (String × String) :=
  tr.foldl (fun m p => matchesInsert m p.1 p.2) []

/-- Allocation discipline of the bindings maps of the results of one
traversal call started at counter `c` and finishing at counter `c'`:
either the call crossed no predicate branch point (counter untouched,
at most one result, which still holds the incoming bindings map), or
every result holds a map allocated during the call, all results
holding pairwise distinct allocations. -/
def AllocSpec (cur : RT) (c c' : Nat) (rs : List RT) : Prop :=
  (c' = c ∧ rs.length ≤ 1 ∧ ∀ r ∈ rs, r.matchesId = cur.matchesId) ∨
  ((∀ r ∈ rs, ∃ i, r.matchesId = some i ∧ c ≤ i ∧ i < c') ∧
    rs.Pairwise (fun a b => a.matchesId ≠ b.matchesId))

theorem predLoop_nil {recur : Node → RT → Nat → List RT × Option String × Nat}
    {mn mk mv : String} {arrIdx : Nat} {cur : RT} {c : Nat} :
    predLoop recur mn mk mv [] arrIdx cur c = ([], none, c) := rfl

theorem predLoop_cons_nonmap {recur : Node → RT → Nat → List RT × Option String × Nat}
    {mn mk mv : String} {e : Node} {es : List Node} {arrIdx : Nat} {cur : RT} {c : Nat}
    (he : ∀ em, e ≠ Node.mapping em) :
    predLoop recur mn mk mv (e :: es) arrIdx cur c =
      ([], some "expected all the elements of the slice to be object", c) := by
  cases e with
  | mapping em => exact absurd rfl (he em)
  | _ => rfl

theorem predLoop_cons_nofield {recur : Node → RT → Nat → List RT × Option String × Nat}
    {mn mk mv : String} {em : List (String × Node)} {es : List Node}
    {arrIdx : Nat} {cur : RT} {c : Nat} (hlk : mapLookup em mk = none) :
    predLoop recur mn mk mv (Node.mapping em :: es) arrIdx cur c =
      predLoop recur mn mk mv es (arrIdx + 1) cur c := by
  simp only [predLoop, hlk]

theorem predLoop_cons_nonstr {recur : Node → RT → Nat → List RT × Option String × Nat}
    {mn mk mv : String} {em : List (String × Node)} {es : List Node}
    {arrIdx : Nat} {cur : RT} {c : Nat} {fv : Node}
    (hlk : mapLookup em mk = some fv) (hfv : ∀ s, fv ≠ Node.str s) :
    predLoop recur mn mk mv (Node.mapping em :: es) arrIdx cur c =
      ([], some "expected the value to be a string", c) := by
  cases fv with
  | str s => exact absurd rfl (hfv s)
  | _ => simp only [predLoop, hlk]

theorem predLoop_cons_skip {recur : Node → RT → Nat → List RT × Option String × Nat}
    {mn mk mv : String} {em : List (String × Node)} {es : List Node}
    {arrIdx : Nat} {cur : RT} {c : Nat} {s : String}
    (hlk : mapLookup em mk = some (Node.str s))
    (hmv : (mv != "" && mv != s) = true) :
    predLoop recur mn mk mv (Node.mapping em :: es) arrIdx cur c =
      predLoop recur mn mk mv es (arrIdx + 1) cur c := by
  simp only [predLoop, hlk, hmv, if_true]

theorem predLoop_cons_match_err {recur : Node → RT → Nat → List RT × Option String × Nat}
    {mn mk mv : String} {em : List (String × Node)} {es : List Node}
    {arrIdx : Nat} {cur : RT} {c : Nat} {s : String}
    {rs : List RT} {err : String} {c' : Nat}
    (hlk : mapLookup em mk = some (Node.str s))
    (hmv : (mv != "" && mv != s) = false)
    (hR : recur (Node.mapping em) (branchRT cur arrIdx mn s c) (c + 1) = (rs, some err, c')) :
    predLoop recur mn mk mv (Node.mapping em :: es) arrIdx cur c = (rs, some err, c') := by
  simp only [predLoop, hlk, hmv, Bool.false_eq_true, if_false, hR]

theorem predLoop_cons_match_ok {recur : Node → RT → Nat → List RT × Option String × Nat}
    {mn mk mv : String} {em : List (String × Node)} {es : List Node}
    {arrIdx : Nat} {cur : RT} {c : Nat} {s : String}
    {rs : List RT} {c' : Nat}
    (hlk : mapLookup em mk = some (Node.str s))
    (hmv : (mv != "" && mv != s) = false)
    (hR : recur (Node.mapping em) (branchRT cur arrIdx mn s c) (c + 1) = (rs, none, c')) :
    predLoop recur mn mk mv (Node.mapping em :: es) arrIdx cur c =
      (rs ++ (predLoop recur mn mk mv es (arrIdx + 1) cur c').1,
       (predLoop recur mn mk mv es (arrIdx + 1) cur c').2) := by
  simp only [predLoop, hlk, hmv, Bool.false_eq_true, if_false, hR]

theorem getRecurse_nil {v : Node} {cur : RT} {c : Nat} :
    getRecurse [] v cur c = ([{ cur with Value := v }], none, c) := rfl

theorem getRecurse_map_found {k : String} {rest : List String}
    {m : List (String × Node)} {v' : Node} {cur : RT} {c : Nat}
    (hn : isNormal k = true) (hlk : mapLookup m k = some v') :
    getRecurse (k :: rest) (Node.mapping m) cur c =
      getRecurse rest v' { cur with Key := cur.Key ++ [k] } c := by
  simp only [getRecurse, hn, if_true, hlk]

theorem getRecurse_map_missing {k : String} {rest : List String}
    {m : List (String × Node)} {cur : RT} {c : Nat}
    (hn : isNormal k = true) (hlk : mapLookup m k = none) :
    getRecurse (k :: rest) (Node.mapping m) cur c =
      ([], some ("failed to find the subkey " ++ k ++ " in the map"), c) := by
  simp only [getRecurse, hn, if_true, hlk]

theorem getRecurse_seq_idx {k : String} {rest : List String}
    {xs : List Node} {idx : Nat} {cur : RT} {c : Nat}
    (hn : isNormal k = true) (hp : arrayIndexParse k = some idx) (h : idx < xs.length) :
    getRecurse (k :: rest) (Node.seq xs) cur c =
      getRecurse rest (xs.get ⟨idx, h⟩) { cur with Key := cur.Key ++ [k] } c := by
  simp only [getRecurse, hn, if_true, hp, h, dif_pos]

theorem getRecurse_seq_oob {k : String} {rest : List String}
    {xs : List Node} {idx : Nat} {cur : RT} {c : Nat}
    (hn : isNormal k = true) (hp : arrayIndexParse k = some idx) (h : ¬ idx < xs.length) :
    getRecurse (k :: rest) (Node.seq xs) cur c =
      ([], some "the index is out of range for the slice", c) := by
  simp only [getRecurse, hn, if_true, hp, h, dif_neg, not_false_iff]

theorem getRecurse_seq_noidx {k : String} {rest : List String}
    {xs : List Node} {cur : RT} {c : Nat}
    (hn : isNormal k = true) (hp : arrayIndexParse k = none) :
    getRecurse (k :: rest) (Node.seq xs) cur c =
      ([], some ("failed to interpret the subkey " ++ k ++ " as an index to the slice"), c) := by
  simp only [getRecurse, hn, if_true, hp]

theorem getRecurse_scalar {k : String} {rest : List String}
    {v : Node} {cur : RT} {c : Nat}
    (hn : isNormal k = true)
    (hm : ∀ m, v ≠ Node.mapping m) (hs : ∀ xs, v ≠ Node.seq xs) :
    getRecurse (k :: rest) v cur c =
      ([], some "the value is not a map or slice", c) := by
  cases v with
  | mapping m => exact absurd rfl (hm m)
  | seq xs => exact absurd rfl (hs xs)
  | _ => simp only [getRecurse, hn, if_true]

theorem getRecurse_pred_invalid {k : String} {rest : List String}
    {v : Node} {cur : RT} {c : Nat}
    (hn : isNormal k = false) (hp : parseComplex k = none) :
    getRecurse (k :: rest) v cur c =
      ([], some ("the subkey " ++ k ++ " is invalid"), c) := by
  simp only [getRecurse, hn, Bool.false_eq_true, if_false, hp]

theorem getRecurse_pred_nonseq {k : String} {rest : List String}
    {v : Node} {cur : RT} {c : Nat} {g1 g2 g3 : String}
    (hn : isNormal k = false) (hp : parseComplex k = some (g1, g2, g3))
    (hs : ∀ xs, v ≠ Node.seq xs) :
    getRecurse (k :: rest) v cur c =
      ([], some "expected a slice of objects", c) := by
  cases v with
  | seq xs => exact absurd rfl (hs xs)
  | _ => simp only [getRecurse, hn, Bool.false_eq_true, if_false, hp]

theorem getRecurse_pred_seq {k : String} {rest : List String}
    {xs : List Node} {cur : RT} {c : Nat} {g1 g2 g3 : String}
    (hn : isNormal k = false) (hp : parseComplex k = some (g1, g2, g3)) :
    getRecurse (k :: rest) (Node.seq xs) cur c =
      predLoop (fun v' cur' c' => getRecurse rest v' cur' c')
        (defaultName g1 g2) g2 (stripEq g3) xs 0 cur c := by
  simp only [getRecurse, hn, Bool.false_eq_true, if_false, hp]
/-!  ### Key path shape  -/

theorem predLoop_key_shape (L : Nat)
    (recur : Node → RT → Nat → List RT × Option String × Nat)
    (mn mk mv : String)
    (hrec : ∀ v cur c, ∀ r ∈ (recur v cur c).1,
      ∃ t, t.length = L ∧ r.Key = cur.Key ++ t) :
    ∀ (xs : List Node) (arrIdx : Nat) (cur : RT) (c : Nat),
      ∀ r ∈ (predLoop recur mn mk mv xs arrIdx cur c).1,
        ∃ t, t.length = L + 1 ∧ r.Key = cur.Key ++ t := by
  intro xs
  induction xs with
  | nil => intro arrIdx cur c r hr; rw [predLoop_nil] at hr; simp at hr
  | cons e es ih =>
    intro arrIdx cur c r hr
    cases e with
    | mapping em =>
      cases hlk : mapLookup em mk with
      | none =>
        rw [predLoop_cons_nofield hlk] at hr
        exact ih _ _ _ r hr
      | some fv =>
        cases fv with
        | str s =>
          cases hmv : (mv != "" && mv != s) with
          | true =>
            rw [predLoop_cons_skip hlk hmv] at hr
            exact ih _ _ _ r hr
          | false =>
            rcases hR : recur (Node.mapping em) (branchRT cur arrIdx mn s c) (c + 1)
              with ⟨rs, err, c'⟩
            cases err with
            | some e' =>
              rw [predLoop_cons_match_err hlk hmv hR] at hr
              have hm2 : r ∈ (recur (Node.mapping em) (branchRT cur arrIdx mn s c) (c + 1)).1 := by
                rw [hR]; simpa using hr
              rcases hrec _ _ _ r hm2 with ⟨t, ht, hk⟩
              refine ⟨("[" ++ toString arrIdx ++ "]") :: t, by simp [ht], ?_⟩
              rw [hk]
              simp [branchRT]
            | none =>
              rw [predLoop_cons_match_ok hlk hmv hR] at hr
              rcases List.mem_append.mp (by simpa using hr) with hr2 | hr2
              · have hm2 : r ∈ (recur (Node.mapping em) (branchRT cur arrIdx mn s c) (c + 1)).1 := by
                  rw [hR]; simpa using hr2
                rcases hrec _ _ _ r hm2 with ⟨t, ht, hk⟩
                refine ⟨("[" ++ toString arrIdx ++ "]") :: t, by simp [ht], ?_⟩
                rw [hk]
                simp [branchRT]
              · exact ih _ _ _ r hr2
        | mapping em2 =>
          rw [predLoop_cons_nonstr hlk (fun _ h => Node.noConfusion h)] at hr
          simp at hr
        | seq xs2 =>
          rw [predLoop_cons_nonstr hlk (fun _ h => Node.noConfusion h)] at hr
          simp at hr
        | intV i =>
          rw [predLoop_cons_nonstr hlk (fun _ h => Node.noConfusion h)] at hr
          simp at hr
        | boolV b =>
          rw [predLoop_cons_nonstr hlk (fun _ h => Node.noConfusion h)] at hr
          simp at hr
        | nullV =>
          rw [predLoop_cons_nonstr hlk (fun _ h => Node.noConfusion h)] at hr
          simp at hr
    | seq xs2 =>
      rw [predLoop_cons_nonmap (fun _ h => Node.noConfusion h)] at hr
      simp at hr
    | str s =>
      rw [predLoop_cons_nonmap (fun _ h => Node.noConfusion h)] at hr
      simp at hr
    | intV i =>
      rw [predLoop_cons_nonmap (fun _ h => Node.noConfusion h)] at hr
      simp at hr
    | boolV b =>
      rw [predLoop_cons_nonmap (fun _ h => Node.noConfusion h)] at hr
      simp at hr
    | nullV =>
      rw [predLoop_cons_nonmap (fun _ h => Node.noConfusion h)] at hr
      simp at hr

theorem getRecurse_key_shape :
    ∀ (suffix : List String) (v : Node) (cur : RT) (c : Nat),
      ∀ r ∈ (getRecurse suffix v cur c).1,
        ∃ t, t.length = suffix.length ∧ r.Key = cur.Key ++ t := by
  intro suffix
  induction suffix with
  | nil =>
    intro v cur c r hr
    rw [getRecurse_nil] at hr
    rcases List.mem_singleton.mp hr with rfl
    exact ⟨[], rfl, by simp⟩
  | cons k rest ih =>
    intro v cur c r hr
    by_cases hn : isNormal k = true
    · cases v with
      | mapping m =>
        cases hlk : mapLookup m k with
        | some v' =>
          rw [getRecurse_map_found hn hlk] at hr
          rcases ih v' _ c r hr with ⟨t, ht, hk⟩
          refine ⟨k :: t, by simp [ht], ?_⟩
          rw [hk]
          simp
        | none =>
          rw [getRecurse_map_missing hn hlk] at hr
          simp at hr
      | seq xs =>
        cases hp : arrayIndexParse k with
        | some idx =>
          by_cases h : idx < xs.length
          · rw [getRecurse_seq_idx hn hp h] at hr
            rcases ih _ _ c r hr with ⟨t, ht, hk⟩
            refine ⟨k :: t, by simp [ht], ?_⟩
            rw [hk]
            simp
          · rw [getRecurse_seq_oob hn hp h] at hr
            simp at hr
        | none =>
          rw [getRecurse_seq_noidx hn hp] at hr
          simp at hr
      | str s =>
        rw [getRecurse_scalar hn (fun _ h => Node.noConfusion h)
          (fun _ h => Node.noConfusion h)] at hr
        simp at hr
      | intV i =>
        rw [getRecurse_scalar hn (fun _ h => Node.noConfusion h)
          (fun _ h => Node.noConfusion h)] at hr
        simp at hr
      | boolV b =>
        rw [getRecurse_scalar hn (fun _ h => Node.noConfusion h)
          (fun _ h => Node.noConfusion h)] at hr
        simp at hr
      | nullV =>
        rw [getRecurse_scalar hn (fun _ h => Node.noConfusion h)
          (fun _ h => Node.noConfusion h)] at hr
        simp at hr
    · have hn2 : isNormal k = false := by
        revert hn; cases isNormal k <;> simp
      cases hp : parseComplex k with
      | none =>
        rw [getRecurse_pred_invalid hn2 hp] at hr
        simp at hr
      | some g =>
        rcases g with ⟨g1, g2, g3⟩
        cases v with
        | seq xs =>
          rw [getRecurse_pred_seq hn2 hp] at hr
          have := predLoop_key_shape rest.length
            (fun v' cur' c' => getRecurse rest v' cur' c')
            (defaultName g1 g2) g2 (stripEq g3)
            (fun v cur c r hr => ih v cur c r hr) xs 0 cur c r hr
          simpa using this
        | mapping m =>
          rw [getRecurse_pred_nonseq hn2 hp (fun _ h => Node.noConfusion h)] at hr
          simp at hr
        | str s =>
          rw [getRecurse_pred_nonseq hn2 hp (fun _ h => Node.noConfusion h)] at hr
          simp at hr
        | intV i =>
          rw [getRecurse_pred_nonseq hn2 hp (fun _ h => Node.noConfusion h)] at hr
          simp at hr
        | boolV b =>
          rw [getRecurse_pred_nonseq hn2 hp (fun _ h => Node.noConfusion h)] at hr
          simp at hr
        | nullV =>
          rw [getRecurse_pred_nonseq hn2 hp (fun _ h => Node.noConfusion h)] at hr
          simp at hr
/-- C8: for every MatchResult returned by a successful GetAll call,
the length of its concrete key path equals the number of segments of
the parsed path expression. -/
theorem claim_C8 (key : String) (tree : Node)
    (_hok : (getAll key tree).2 = none) :
    ∀ r ∈ (getAll key tree).1, r.Key.length = (getSubKeys key).length := by
  intro r hr
  have hr' : r ∈ (getRecurse (getSubKeys key) tree initialRT 0).1 := hr
  rcases getRecurse_key_shape (getSubKeys key) tree initialRT 0 r hr' with ⟨t, ht, hk⟩
  have hik : initialRT.Key = [] := rfl
  rw [hk, hik]
  simpa using ht

/-- Witness for C8 on the spec's concrete container scenario. -/
theorem claim_C8_witness :
    (getAll "containers.[name=nginx].image"
      (Node.mapping [("containers", Node.seq [
        Node.mapping [("name", Node.str "nginx"), ("image", Node.str "a")],
        Node.mapping [("name", Node.str "sidecar"), ("image", Node.str "b")]])])).2 = none ∧
    ∀ r ∈ (getAll "containers.[name=nginx].image"
      (Node.mapping [("containers", Node.seq [
        Node.mapping [("name", Node.str "nginx"), ("image", Node.str "a")],
        Node.mapping [("name", Node.str "sidecar"), ("image", Node.str "b")]])])).1,
      r.Key.length = (getSubKeys "containers.[name=nginx].image").length :=
  ⟨by with_unfolding_all rfl, claim_C8 _ _ (by with_unfolding_all rfl)⟩
/-!  ### Errors in the Predicate loop  -/

theorem predLoop_error (recur : Node → RT → Nat → List RT × Option String × Nat)
    (mn mk mv : String) (e : Node)
    (hbreak : (∀ em, e ≠ Node.mapping em) ∨
      (∃ em fv, e = Node.mapping em ∧ mapLookup em mk = some fv ∧ ∀ s, fv ≠ Node.str s) ∨
      (predMatches mk mv e = true ∧ ∀ cur c, ((recur e cur c).2.1).isSome = true)) :
    ∀ (xs : List Node), e ∈ xs → ∀ (arrIdx : Nat) (cur : RT) (c : Nat),
      ((predLoop recur mn mk mv xs arrIdx cur c).2.1).isSome = true := by
  intro xs
  induction xs with
  | nil => intro he; simp at he
  | cons x es ih =>
    intro he arrIdx cur c
    rcases List.mem_cons.mp he with rfl | he2
    · rcases hbreak with hnm | ⟨em, fv, rfl, hlk, hfv⟩ | ⟨hpm, hrec⟩
      · rw [predLoop_cons_nonmap hnm]; rfl
      · rw [predLoop_cons_nonstr hlk hfv]; rfl
      · cases e with
        | mapping em =>
          cases hlk : mapLookup em mk with
          | none => rw [predMatches, hlk] at hpm; exact absurd hpm (by simp)
          | some fv =>
            cases fv with
            | str s =>
              rw [predMatches, hlk] at hpm
              have hpm2 : (!(mv != "" && mv != s)) = true := hpm
              have hmv : (mv != "" && mv != s) = false := by
                cases h2 : (mv != "" && mv != s) with
                | false => rfl
                | true => rw [h2] at hpm2; exact absurd hpm2 (by simp)
              rcases hR : recur (Node.mapping em) (branchRT cur arrIdx mn s c) (c + 1)
                with ⟨rs, err, c'⟩
              cases err with
              | some e' => rw [predLoop_cons_match_err hlk hmv hR]; rfl
              | none =>
                have := hrec (branchRT cur arrIdx mn s c) (c + 1)
                rw [hR] at this
                simp at this
            | mapping em2 => rw [predMatches, hlk] at hpm; exact absurd hpm (by simp)
            | seq xs2 => rw [predMatches, hlk] at hpm; exact absurd hpm (by simp)
            | intV i => rw [predMatches, hlk] at hpm; exact absurd hpm (by simp)
            | boolV b => rw [predMatches, hlk] at hpm; exact absurd hpm (by simp)
            | nullV => rw [predMatches, hlk] at hpm; exact absurd hpm (by simp)
        | seq xs2 => rw [predMatches] at hpm; exact absurd hpm (by simp)
        | str s => rw [predMatches] at hpm; exact absurd hpm (by simp)
        | intV i => rw [predMatches] at hpm; exact absurd hpm (by simp)
        | boolV b => rw [predMatches] at hpm; exact absurd hpm (by simp)
        | nullV => rw [predMatches] at hpm; exact absurd hpm (by simp)
    · cases x with
      | mapping em =>
        cases hlk : mapLookup em mk with
        | none =>
          rw [predLoop_cons_nofield hlk]
          exact ih he2 _ _ _
        | some fv =>
          cases fv with
          | str s =>
            cases hmv : (mv != "" && mv != s) with
            | true =>
              rw [predLoop_cons_skip hlk hmv]
              exact ih he2 _ _ _
            | false =>
              rcases hR : recur (Node.mapping em) (branchRT cur arrIdx mn s c) (c + 1)
                with ⟨rs, err, c'⟩
              cases err with
              | some e' => rw [predLoop_cons_match_err hlk hmv hR]; rfl
              | none =>
                rw [predLoop_cons_match_ok hlk hmv hR]
                exact ih he2 _ _ _
          | mapping em2 => rw [predLoop_cons_nonstr hlk (fun _ h => Node.noConfusion h)]; rfl
          | seq xs2 => rw [predLoop_cons_nonstr hlk (fun _ h => Node.noConfusion h)]; rfl
          | intV i => rw [predLoop_cons_nonstr hlk (fun _ h => Node.noConfusion h)]; rfl
          | boolV b => rw [predLoop_cons_nonstr hlk (fun _ h => Node.noConfusion h)]; rfl
          | nullV => rw [predLoop_cons_nonstr hlk (fun _ h => Node.noConfusion h)]; rfl
      | seq xs2 => rw [predLoop_cons_nonmap (fun _ h => Node.noConfusion h)]; rfl
      | str s => rw [predLoop_cons_nonmap (fun _ h => Node.noConfusion h)]; rfl
      | intV i => rw [predLoop_cons_nonmap (fun _ h => Node.noConfusion h)]; rfl
      | boolV b => rw [predLoop_cons_nonmap (fun _ h => Node.noConfusion h)]; rfl
      | nullV => rw [predLoop_cons_nonmap (fun _ h => Node.noConfusion h)]; rfl
/-- C1 counterexample: the claim says non-Mapping elements of the
sequence are skipped silently and never cause an error, but on the
path `[a]` over the sequence `["x", {a: "b"}]` GetAll errors out
because of the scalar element and returns no results at all. -/
theorem claim_C1_counterexample :
    ((getAllK ["[a]"]
      (Node.seq [Node.str "x", Node.mapping [("a", Node.str "b")]])).2).isSome = true ∧
    (getAllK ["[a]"]
      (Node.seq [Node.str "x", Node.mapping [("a", Node.str "b")]])).1 = [] := by
  constructor
  · with_unfolding_all rfl
  · with_unfolding_all rfl

/-- C1 (amended): when a Predicate segment is evaluated against a
Sequence, any non-Mapping element of the sequence makes the whole
call fail with an error (utils.go lines 117-121). -/
theorem claim_C1 (k : String) (rest : List String) (xs : List Node)
    (g1 g2 g3 : String) (e : Node) (cur : RT) (c : Nat)
    (hn : isNormal k = false) (hp : parseComplex k = some (g1, g2, g3))
    (he : e ∈ xs) (hnm : ∀ em, e ≠ Node.mapping em) :
    ((getRecurse (k :: rest) (Node.seq xs) cur c).2.1).isSome = true := by
  rw [getRecurse_pred_seq hn hp]
  exact predLoop_error _ _ _ _ e (Or.inl hnm) xs he 0 cur c

/-- Witness for the amended C1. -/
theorem claim_C1_witness :
    ((getRecurse ["[a]"] (Node.seq [Node.str "x", Node.mapping [("a", Node.str "b")]])
      initialRT 0).2.1).isSome = true :=
  claim_C1 "[a]" [] [Node.str "x", Node.mapping [("a", Node.str "b")]]
    "" "a" "" (Node.str "x") initialRT 0
    (by with_unfolding_all rfl) (by with_unfolding_all rfl)
    (by simp) (fun _ h => Node.noConfusion h)

/-- C10: during Predicate evaluation, a Mapping element that contains
the predicate's field with a non-string value makes GetAll fail with
an error, even when the predicate has no value filter (utils.go lines
122-128). -/
theorem claim_C10 (k : String) (rest : List String) (xs : List Node)
    (g1 g2 g3 : String) (em : List (String × Node)) (fv : Node) (cur : RT) (c : Nat)
    (hn : isNormal k = false) (hp : parseComplex k = some (g1, g2, g3))
    (he : Node.mapping em ∈ xs) (hf : mapLookup em g2 = some fv)
    (hfv : ∀ s, fv ≠ Node.str s) :
    ((getRecurse (k :: rest) (Node.seq xs) cur c).2.1).isSome = true := by
  rw [getRecurse_pred_seq hn hp]
  exact predLoop_error _ _ _ _ (Node.mapping em)
    (Or.inr (Or.inl ⟨em, fv, rfl, hf, hfv⟩)) xs he 0 cur c

/-- Witness for C10: presence-only predicate `[a]` over a sequence
whose element maps `a` to an integer. -/
theorem claim_C10_witness :
    ((getRecurse ["[a]"] (Node.seq [Node.mapping [("a", Node.intV 1)]])
      initialRT 0).2.1).isSome = true :=
  claim_C10 "[a]" [] [Node.mapping [("a", Node.intV 1)]]
    "" "a" "" [("a", Node.intV 1)] (Node.intV 1) initialRT 0
    (by with_unfolding_all rfl) (by with_unfolding_all rfl)
    (by simp) (by with_unfolding_all rfl) (fun _ h => Node.noConfusion h)

/-- C9: SetCreatingNew returns an error exactly when the key is the
empty string or parsing it yields zero segments; on every key with at
least one segment it succeeds, for every config map and value. -/
theorem claim_C9 (key : String) (nv : Node) (config : List (String × Node)) :
    ((setCreatingNewS key nv config).1).isSome = true ↔
      (key = "" ∨ getSubKeys key = []) := by
  unfold setCreatingNewS
  by_cases hk : key = ""
  · simp [hk]
  · rw [if_neg hk]
    unfold setCreatingNew
    cases hks : getSubKeys key with
    | nil => simp [hks]
    | cons k rest => simp [hks, hk]
/-!  ### Set, SetCreatingNew and the round trip  -/

theorem pairwise_of_length_le_one {p : RT → RT → Prop} (rs : List RT)
    (h : rs.length ≤ 1) : rs.Pairwise p := by
  rcases rs with _ | ⟨a, _ | ⟨b, t⟩⟩
  · exact List.Pairwise.nil
  · exact List.pairwise_singleton p a
  · simp at h

theorem predLoop_counter_mono (recur : Node → RT → Nat → List RT × Option String × Nat)
    (mn mk mv : String)
    (hmono : ∀ v cur c, c ≤ (recur v cur c).2.2) :
    ∀ (xs : List Node) (arrIdx : Nat) (cur : RT) (c : Nat),
      c ≤ (predLoop recur mn mk mv xs arrIdx cur c).2.2 := by
  intro xs
  induction xs with
  | nil => intro arrIdx cur c; rw [predLoop_nil]
  | cons e es ih =>
    intro arrIdx cur c
    cases e with
    | mapping em =>
      cases hlk : mapLookup em mk with
      | none => rw [predLoop_cons_nofield hlk]; exact ih _ _ _
      | some fv =>
        cases fv with
        | str s =>
          cases hmv : (mv != "" && mv != s) with
          | true => rw [predLoop_cons_skip hlk hmv]; exact ih _ _ _
          | false =>
            rcases hR : recur (Node.mapping em) (branchRT cur arrIdx mn s c) (c + 1)
              with ⟨rs, err, c'⟩
            have h1 : c + 1 ≤ c' := by
              have := hmono (Node.mapping em) (branchRT cur arrIdx mn s c) (c + 1)
              rw [hR] at this
              exact this
            cases err with
            | some e' =>
              rw [predLoop_cons_match_err hlk hmv hR]
              show c ≤ c'
              omega
            | none =>
              rw [predLoop_cons_match_ok hlk hmv hR]
              have h2 := ih (arrIdx + 1) cur c'
              show c ≤ (predLoop recur mn mk mv es (arrIdx + 1) cur c').2.2
              omega
        | mapping em2 => rw [predLoop_cons_nonstr hlk (fun _ h => Node.noConfusion h)]
        | seq xs2 => rw [predLoop_cons_nonstr hlk (fun _ h => Node.noConfusion h)]
        | intV i => rw [predLoop_cons_nonstr hlk (fun _ h => Node.noConfusion h)]
        | boolV b => rw [predLoop_cons_nonstr hlk (fun _ h => Node.noConfusion h)]
        | nullV => rw [predLoop_cons_nonstr hlk (fun _ h => Node.noConfusion h)]
    | seq xs2 => rw [predLoop_cons_nonmap (fun _ h => Node.noConfusion h)]
    | str s => rw [predLoop_cons_nonmap (fun _ h => Node.noConfusion h)]
    | intV i => rw [predLoop_cons_nonmap (fun _ h => Node.noConfusion h)]
    | boolV b => rw [predLoop_cons_nonmap (fun _ h => Node.noConfusion h)]
    | nullV => rw [predLoop_cons_nonmap (fun _ h => Node.noConfusion h)]

theorem getRecurse_counter_mono :
    ∀ (suffix : List String) (v : Node) (cur : RT) (c : Nat),
      c ≤ (getRecurse suffix v cur c).2.2 := by
  intro suffix
  induction suffix with
  | nil => intro v cur c; rw [getRecurse_nil]
  | cons k rest ih =>
    intro v cur c
    by_cases hn : isNormal k = true
    · cases v with
      | mapping m =>
        cases hlk : mapLookup m k with
        | some v' => rw [getRecurse_map_found hn hlk]; exact ih _ _ _
        | none => rw [getRecurse_map_missing hn hlk]
      | seq xs =>
        cases hp : arrayIndexParse k with
        | some idx =>
          by_cases h : idx < xs.length
          · rw [getRecurse_seq_idx hn hp h]; exact ih _ _ _
          · rw [getRecurse_seq_oob hn hp h]
        | none => rw [getRecurse_seq_noidx hn hp]
      | str s =>
        rw [getRecurse_scalar hn (fun _ h => Node.noConfusion h) (fun _ h => Node.noConfusion h)]
      | intV i =>
        rw [getRecurse_scalar hn (fun _ h => Node.noConfusion h) (fun _ h => Node.noConfusion h)]
      | boolV b =>
        rw [getRecurse_scalar hn (fun _ h => Node.noConfusion h) (fun _ h => Node.noConfusion h)]
      | nullV =>
        rw [getRecurse_scalar hn (fun _ h => Node.noConfusion h) (fun _ h => Node.noConfusion h)]
    · have hn2 : isNormal k = false := by revert hn; cases isNormal k <;> simp
      cases hp : parseComplex k with
      | none => rw [getRecurse_pred_invalid hn2 hp]
      | some g =>
        rcases g with ⟨g1, g2, g3⟩
        cases v with
        | seq xs =>
          rw [getRecurse_pred_seq hn2 hp]
          exact predLoop_counter_mono _ _ _ _ (fun v cur c => ih v cur c) xs 0 cur c
        | mapping m => rw [getRecurse_pred_nonseq hn2 hp (fun _ h => Node.noConfusion h)]
        | str s => rw [getRecurse_pred_nonseq hn2 hp (fun _ h => Node.noConfusion h)]
        | intV i => rw [getRecurse_pred_nonseq hn2 hp (fun _ h => Node.noConfusion h)]
        | boolV b => rw [getRecurse_pred_nonseq hn2 hp (fun _ h => Node.noConfusion h)]
        | nullV => rw [getRecurse_pred_nonseq hn2 hp (fun _ h => Node.noConfusion h)]

theorem predLoop_alloc (recur : Node → RT → Nat → List RT × Option String × Nat)
    (mn mk mv : String)
    (hmono : ∀ v cur c, c ≤ (recur v cur c).2.2)
    (halloc : ∀ v cur c, AllocSpec cur c ((recur v cur c).2.2) ((recur v cur c).1)) :
    ∀ (xs : List Node) (arrIdx : Nat) (cur : RT) (c : Nat),
      (∀ r ∈ (predLoop recur mn mk mv xs arrIdx cur c).1,
        ∃ i, r.matchesId = some i ∧ c ≤ i ∧
          i < (predLoop recur mn mk mv xs arrIdx cur c).2.2) ∧
      ((predLoop recur mn mk mv xs arrIdx cur c).1).Pairwise
        (fun a b => a.matchesId ≠ b.matchesId) := by
  intro xs
  induction xs with
  | nil =>
    intro arrIdx cur c
    rw [predLoop_nil]
    exact ⟨by simp, List.Pairwise.nil⟩
  | cons e es ih =>
    intro arrIdx cur c
    cases e with
    | mapping em =>
      cases hlk : mapLookup em mk with
      | none => rw [predLoop_cons_nofield hlk]; exact ih _ _ _
      | some fv =>
        cases fv with
        | str s =>
          cases hmv : (mv != "" && mv != s) with
          | true => rw [predLoop_cons_skip hlk hmv]; exact ih _ _ _
          | false =>
            rcases hR : recur (Node.mapping em) (branchRT cur arrIdx mn s c) (c + 1)
              with ⟨rs, err, c1⟩
            have hm1 : c + 1 ≤ c1 := by
              have := hmono (Node.mapping em) (branchRT cur arrIdx mn s c) (c + 1)
              rw [hR] at this
              exact this
            have ha1 : AllocSpec (branchRT cur arrIdx mn s c) (c + 1) c1 rs := by
              have := halloc (Node.mapping em) (branchRT cur arrIdx mn s c) (c + 1)
              rw [hR] at this
              exact this
            have hrs : ∀ r ∈ rs, ∃ i, r.matchesId = some i ∧ c ≤ i ∧ i < c1 := by
              rcases ha1 with ⟨hc1, _, hids⟩ | ⟨hids, _⟩
              · intro r hr
                refine ⟨c, ?_, le_refl c, by omega⟩
                rw [hids r hr]
                rfl
              · intro r hr
                rcases hids r hr with ⟨i, hi, hle, hlt⟩
                exact ⟨i, hi, by omega, hlt⟩
            have hrspw : rs.Pairwise (fun a b => a.matchesId ≠ b.matchesId) := by
              rcases ha1 with ⟨_, hlen, _⟩ | ⟨_, hpw⟩
              · exact pairwise_of_length_le_one rs hlen
              · exact hpw
            cases err with
            | some e' =>
              rw [predLoop_cons_match_err hlk hmv hR]
              exact ⟨hrs, hrspw⟩
            | none =>
              have hfst : (predLoop recur mn mk mv (Node.mapping em :: es) arrIdx cur c).1 =
                  rs ++ (predLoop recur mn mk mv es (arrIdx + 1) cur c1).1 := by
                rw [predLoop_cons_match_ok hlk hmv hR]
              have hsnd : (predLoop recur mn mk mv (Node.mapping em :: es) arrIdx cur c).2.2 =
                  (predLoop recur mn mk mv es (arrIdx + 1) cur c1).2.2 := by
                rw [predLoop_cons_match_ok hlk hmv hR]
              rw [hfst, hsnd]
              rcases ih (arrIdx + 1) cur c1 with ⟨hrs2, hpw2⟩
              have hm2 : c1 ≤ (predLoop recur mn mk mv es (arrIdx + 1) cur c1).2.2 :=
                predLoop_counter_mono recur mn mk mv hmono es (arrIdx + 1) cur c1
              constructor
              · intro r hr
                rcases List.mem_append.mp hr with hr2 | hr2
                · rcases hrs r hr2 with ⟨i, hi, hle, hlt⟩
                  exact ⟨i, hi, hle, by omega⟩
                · rcases hrs2 r hr2 with ⟨i, hi, hle, hlt⟩
                  exact ⟨i, hi, by omega, hlt⟩
              · rw [List.pairwise_append]
                refine ⟨hrspw, hpw2, ?_⟩
                intro a ha b hb
                rcases hrs a ha with ⟨i, hi, _, hilt⟩
                rcases hrs2 b hb with ⟨j, hj, hjle, _⟩
                rw [hi, hj]
                intro hij
                have : i = j := Option.some_injective _ hij
                omega
        | mapping em2 =>
          rw [predLoop_cons_nonstr hlk (fun _ h => Node.noConfusion h)]
          exact ⟨by simp, List.Pairwise.nil⟩
        | seq xs2 =>
          rw [predLoop_cons_nonstr hlk (fun _ h => Node.noConfusion h)]
          exact ⟨by simp, List.Pairwise.nil⟩
        | intV i =>
          rw [predLoop_cons_nonstr hlk (fun _ h => Node.noConfusion h)]
          exact ⟨by simp, List.Pairwise.nil⟩
        | boolV b =>
          rw [predLoop_cons_nonstr hlk (fun _ h => Node.noConfusion h)]
          exact ⟨by simp, List.Pairwise.nil⟩
        | nullV =>
          rw [predLoop_cons_nonstr hlk (fun _ h => Node.noConfusion h)]
          exact ⟨by simp, List.Pairwise.nil⟩
    | seq xs2 =>
      rw [predLoop_cons_nonmap (fun _ h => Node.noConfusion h)]
      exact ⟨by simp, List.Pairwise.nil⟩
    | str s =>
      rw [predLoop_cons_nonmap (fun _ h => Node.noConfusion h)]
      exact ⟨by simp, List.Pairwise.nil⟩
    | intV i =>
      rw [predLoop_cons_nonmap (fun _ h => Node.noConfusion h)]
      exact ⟨by simp, List.Pairwise.nil⟩
    | boolV b =>
      rw [predLoop_cons_nonmap (fun _ h => Node.noConfusion h)]
      exact ⟨by simp, List.Pairwise.nil⟩
    | nullV =>
      rw [predLoop_cons_nonmap (fun _ h => Node.noConfusion h)]
      exact ⟨by simp, List.Pairwise.nil⟩

theorem getRecurse_alloc :
    ∀ (suffix : List String) (v : Node) (cur : RT) (c : Nat),
      AllocSpec cur c ((getRecurse suffix v cur c).2.2) ((getRecurse suffix v cur c).1) := by
  intro suffix
  induction suffix with
  | nil =>
    intro v cur c
    rw [getRecurse_nil]
    exact Or.inl ⟨rfl, by simp, by simp⟩
  | cons k rest ih =>
    intro v cur c
    by_cases hn : isNormal k = true
    · cases v with
      | mapping m =>
        cases hlk : mapLookup m k with
        | some v' =>
          rw [getRecurse_map_found hn hlk]
          exact ih v' { cur with Key := cur.Key ++ [k] } c
        | none =>
          rw [getRecurse_map_missing hn hlk]
          exact Or.inl ⟨rfl, by simp, by simp⟩
      | seq xs =>
        cases hp : arrayIndexParse k with
        | some idx =>
          by_cases h : idx < xs.length
          · rw [getRecurse_seq_idx hn hp h]
            exact ih _ { cur with Key := cur.Key ++ [k] } c
          · rw [getRecurse_seq_oob hn hp h]
            exact Or.inl ⟨rfl, by simp, by simp⟩
        | none =>
          rw [getRecurse_seq_noidx hn hp]
          exact Or.inl ⟨rfl, by simp, by simp⟩
      | str s =>
        rw [getRecurse_scalar hn (fun _ h => Node.noConfusion h) (fun _ h => Node.noConfusion h)]
        exact Or.inl ⟨rfl, by simp, by simp⟩
      | intV i =>
        rw [getRecurse_scalar hn (fun _ h => Node.noConfusion h) (fun _ h => Node.noConfusion h)]
        exact Or.inl ⟨rfl, by simp, by simp⟩
      | boolV b =>
        rw [getRecurse_scalar hn (fun _ h => Node.noConfusion h) (fun _ h => Node.noConfusion h)]
        exact Or.inl ⟨rfl, by simp, by simp⟩
      | nullV =>
        rw [getRecurse_scalar hn (fun _ h => Node.noConfusion h) (fun _ h => Node.noConfusion h)]
        exact Or.inl ⟨rfl, by simp, by simp⟩
    · have hn2 : isNormal k = false := by revert hn; cases isNormal k <;> simp
      cases hp : parseComplex k with
      | none =>
        rw [getRecurse_pred_invalid hn2 hp]
        exact Or.inl ⟨rfl, by simp, by simp⟩
      | some g =>
        rcases g with ⟨g1, g2, g3⟩
        cases v with
        | seq xs =>
          rw [getRecurse_pred_seq hn2 hp]
          exact Or.inr (predLoop_alloc _ _ _ _
            (fun v cur c => getRecurse_counter_mono rest v cur c)
            (fun v cur c => ih v cur c) xs 0 cur c)
        | mapping m =>
          rw [getRecurse_pred_nonseq hn2 hp (fun _ h => Node.noConfusion h)]
          exact Or.inl ⟨rfl, by simp, by simp⟩
        | str s =>
          rw [getRecurse_pred_nonseq hn2 hp (fun _ h => Node.noConfusion h)]
          exact Or.inl ⟨rfl, by simp, by simp⟩
        | intV i =>
          rw [getRecurse_pred_nonseq hn2 hp (fun _ h => Node.noConfusion h)]
          exact Or.inl ⟨rfl, by simp, by simp⟩
        | boolV b =>
          rw [getRecurse_pred_nonseq hn2 hp (fun _ h => Node.noConfusion h)]
          exact Or.inl ⟨rfl, by simp, by simp⟩
        | nullV =>
          rw [getRecurse_pred_nonseq hn2 hp (fun _ h => Node.noConfusion h)]
          exact Or.inl ⟨rfl, by simp, by simp⟩
theorem foldTrace_append (tr : List (String × String)) (p : String × String) :
    foldTrace (tr ++ [p]) = matchesInsert (foldTrace tr) p.1 p.2 := by
  simp [foldTrace, List.foldl_append]

theorem predLoop_trace (recur : Node → RT → Nat → List RT × Option String × Nat)
    (mn mk mv : String)
    (hrec : ∀ v cur c, cur.Matches = foldTrace cur.trace →
      ∀ r ∈ (recur v cur c).1, r.Matches = foldTrace r.trace) :
    ∀ (xs : List Node) (arrIdx : Nat) (cur : RT) (c : Nat),
      cur.Matches = foldTrace cur.trace →
      ∀ r ∈ (predLoop recur mn mk mv xs arrIdx cur c).1,
        r.Matches = foldTrace r.trace := by
  intro xs
  induction xs with
  | nil => intro arrIdx cur c _ r hr; rw [predLoop_nil] at hr; simp at hr
  | cons e es ih =>
    intro arrIdx cur c hcur r hr
    cases e with
    | mapping em =>
      cases hlk : mapLookup em mk with
      | none =>
        rw [predLoop_cons_nofield hlk] at hr
        exact ih _ _ _ hcur r hr
      | some fv =>
        cases fv with
        | str s =>
          cases hmv : (mv != "" && mv != s) with
          | true =>
            rw [predLoop_cons_skip hlk hmv] at hr
            exact ih _ _ _ hcur r hr
          | false =>
            have hbr : (branchRT cur arrIdx mn s c).Matches =
                foldTrace (branchRT cur arrIdx mn s c).trace := by
              show matchesInsert cur.Matches mn s = foldTrace (cur.trace ++ [(mn, s)])
              rw [foldTrace_append, hcur]
            rcases hR : recur (Node.mapping em) (branchRT cur arrIdx mn s c) (c + 1)
              with ⟨rs, err, c1⟩
            cases err with
            | some e' =>
              rw [predLoop_cons_match_err hlk hmv hR] at hr
              have hm2 : r ∈ (recur (Node.mapping em) (branchRT cur arrIdx mn s c) (c + 1)).1 := by
                rw [hR]; simpa using hr
              exact hrec _ _ _ hbr r hm2
            | none =>
              rw [predLoop_cons_match_ok hlk hmv hR] at hr
              rcases List.mem_append.mp (by simpa using hr) with hr2 | hr2
              · have hm2 : r ∈ (recur (Node.mapping em) (branchRT cur arrIdx mn s c) (c + 1)).1 := by
                  rw [hR]; simpa using hr2
                exact hrec _ _ _ hbr r hm2
              · exact ih _ _ _ hcur r hr2
        | mapping em2 =>
          rw [predLoop_cons_nonstr hlk (fun _ h => Node.noConfusion h)] at hr; simp at hr
        | seq xs2 =>
          rw [predLoop_cons_nonstr hlk (fun _ h => Node.noConfusion h)] at hr; simp at hr
        | intV i =>
          rw [predLoop_cons_nonstr hlk (fun _ h => Node.noConfusion h)] at hr; simp at hr
        | boolV b =>
          rw [predLoop_cons_nonstr hlk (fun _ h => Node.noConfusion h)] at hr; simp at hr
        | nullV =>
          rw [predLoop_cons_nonstr hlk (fun _ h => Node.noConfusion h)] at hr; simp at hr
    | seq xs2 =>
      rw [predLoop_cons_nonmap (fun _ h => Node.noConfusion h)] at hr; simp at hr
    | str s =>
      rw [predLoop_cons_nonmap (fun _ h => Node.noConfusion h)] at hr; simp at hr
    | intV i =>
      rw [predLoop_cons_nonmap (fun _ h => Node.noConfusion h)] at hr; simp at hr
    | boolV b =>
      rw [predLoop_cons_nonmap (fun _ h => Node.noConfusion h)] at hr; simp at hr
    | nullV =>
      rw [predLoop_cons_nonmap (fun _ h => Node.noConfusion h)] at hr; simp at hr

theorem getRecurse_trace :
    ∀ (suffix : List String) (v : Node) (cur : RT) (c : Nat),
      cur.Matches = foldTrace cur.trace →
      ∀ r ∈ (getRecurse suffix v cur c).1, r.Matches = foldTrace r.trace := by
  intro suffix
  induction suffix with
  | nil =>
    intro v cur c hcur r hr
    rw [getRecurse_nil] at hr
    rcases List.mem_singleton.mp hr with rfl
    exact hcur
  | cons k rest ih =>
    intro v cur c hcur r hr
    by_cases hn : isNormal k = true
    · cases v with
      | mapping m =>
        cases hlk : mapLookup m k with
        | some v' =>
          rw [getRecurse_map_found hn hlk] at hr
          exact ih v' { cur with Key := cur.Key ++ [k] } c hcur r hr
        | none => rw [getRecurse_map_missing hn hlk] at hr; simp at hr
      | seq xs =>
        cases hp : arrayIndexParse k with
        | some idx =>
          by_cases h : idx < xs.length
          · rw [getRecurse_seq_idx hn hp h] at hr
            exact ih _ { cur with Key := cur.Key ++ [k] } c hcur r hr
          · rw [getRecurse_seq_oob hn hp h] at hr; simp at hr
        | none => rw [getRecurse_seq_noidx hn hp] at hr; simp at hr
      | str s =>
        rw [getRecurse_scalar hn (fun _ h => Node.noConfusion h)
          (fun _ h => Node.noConfusion h)] at hr
        simp at hr
      | intV i =>
        rw [getRecurse_scalar hn (fun _ h => Node.noConfusion h)
          (fun _ h => Node.noConfusion h)] at hr
        simp at hr
      | boolV b =>
        rw [getRecurse_scalar hn (fun _ h => Node.noConfusion h)
          (fun _ h => Node.noConfusion h)] at hr
        simp at hr
      | nullV =>
        rw [getRecurse_scalar hn (fun _ h => Node.noConfusion h)
          (fun _ h => Node.noConfusion h)] at hr
        simp at hr
    · have hn2 : isNormal k = false := by revert hn; cases isNormal k <;> simp
      cases hp : parseComplex k with
      | none => rw [getRecurse_pred_invalid hn2 hp] at hr; simp at hr
      | some g =>
        rcases g with ⟨g1, g2, g3⟩
        cases v with
        | seq xs =>
          rw [getRecurse_pred_seq hn2 hp] at hr
          exact predLoop_trace _ _ _ _ (fun v cur c hc r hr => ih v cur c hc r hr)
            xs 0 cur c hcur r hr
        | mapping m =>
          rw [getRecurse_pred_nonseq hn2 hp (fun _ h => Node.noConfusion h)] at hr; simp at hr
        | str s =>
          rw [getRecurse_pred_nonseq hn2 hp (fun _ h => Node.noConfusion h)] at hr; simp at hr
        | intV i =>
          rw [getRecurse_pred_nonseq hn2 hp (fun _ h => Node.noConfusion h)] at hr; simp at hr
        | boolV b =>
          rw [getRecurse_pred_nonseq hn2 hp (fun _ h => Node.noConfusion h)] at hr; simp at hr
        | nullV =>
          rw [getRecurse_pred_nonseq hn2 hp (fun _ h => Node.noConfusion h)] at hr; simp at hr

/-- C6: bindings are isolated per branch and correct.  Any two
distinct MatchResults of one GetAll call hold bindings maps with
distinct allocation ids (the Go code allocates a fresh
`map[string]string` per predicate match, so no two results share a
mutable bindings instance and mutating one after the call cannot
change another); and each result's bindings map equals the successive
insertion of the `(captureName, matchedValue)` captures recorded
along its branch. -/
theorem claim_C6 (subKeys : List String) (tree : Node) :
    ((getAllK subKeys tree).1).Pairwise (fun a b => a.matchesId ≠ b.matchesId) ∧
    ∀ r ∈ (getAllK subKeys tree).1, r.Matches = foldTrace r.trace := by
  constructor
  · have h := getRecurse_alloc subKeys tree initialRT 0
    have heq : (getAllK subKeys tree).1 = (getRecurse subKeys tree initialRT 0).1 := rfl
    rw [heq]
    rcases h with ⟨_, hlen, _⟩ | ⟨_, hpw⟩
    · exact pairwise_of_length_le_one _ hlen
    · exact hpw
  · intro r hr
    exact getRecurse_trace subKeys tree initialRT 0 rfl r hr
/-!  ### Branch counting for independent predicates  -/

end M2K
